import Mathlib

/-! Verification development for the dogcat-scraper repository.

The repository has two pipelines:
* `animal_list_scraper.py` — a sequential listing crawler (`extract_animal_data`):
  paginated page visits, per-card field extraction, required-field filtering,
  deduplication by profile link, halt-on-error pagination.
* `adoption_profiles_scraper.py` — a concurrent profile fetcher
  (`fetch_profile` / `main_async`): semaphore-bounded fan-out of HTTP fetches,
  per-task outcome classification into `success` / `fail` / `missing_info`
  counters and a shared results list, plus field extraction
  (`extract_adoption_profile`, `parse_age_gender`).

Texts are embedded as `List Char` (Python `str`), HTML-library lookups as
`Option`-valued fields of record types describing exactly the DOM queries the
source performs, and the cooperative async scheduler as an explicit step
relation. -/

/-- Python whitespace test used by `str.strip()` for the ASCII range relevant
here (space, tab, newline, carriage return, vertical tab, form feed). -/
def isPySpace (c : Char) : Bool :=
  c == ' ' || c == '\t' || c == '\n' || c == '\r' || c == '\x0B' || c == '\x0C'

/-- Python `str.strip()`: drop whitespace from both ends. -/
def pyStrip (cs : List Char) : List Char :=
  ((cs.dropWhile isPySpace).reverse.dropWhile isPySpace).reverse

/-- Python `str.split(',')`: split on every comma; the empty string yields
one empty part, and a trailing comma yields a trailing empty part. -/
def splitOnComma : List Char → List (List Char)
  | [] => [[]]
  | c :: rest =>
    match splitOnComma rest with
    | [] => [[]]
    | h :: t => if c = ',' then [] :: h :: t else (c :: h) :: t

/-- Whether a text contains a comma. -/
def hasComma (t : List Char) : Bool :=
  t.any (fun c => c == ',')

/-- Python `str.replace(c, '')`: delete every occurrence of the character. -/
def removeChar (c : Char) : List Char → List Char
  | [] => []
  | x :: xs => if x = c then removeChar c xs else x :: removeChar c xs

/-- One listing card of `animal_list_scraper.py`, holding the outcome of the
five DOM lookups performed in `extract_animal_data` (lines 96-126): `pet_id`
from the `setPopupData` onclick match, `link` from the card anchor's href,
`name` from the `h5` text, `ptext` from the `p` tag's text (absent when the
tag is absent), `photo_url` from the thumbnail's data-src attribute. -/
structure AnimalCard where
  pet_id : Option (List Char)
  link : Option (List Char)
  name : Option (List Char)
  ptext : Option (List Char)
  photo_url : Option (List Char)
deriving Repr, DecidableEq

/-- A validated listing record (the dict stored into `animal_data`). -/
structure AnimalRecord where
  pet_id : List Char
  link : List Char
  name : List Char
  sex : List Char
  age : List Char
  photo_url : List Char
deriving Repr, DecidableEq

/-- Python truthiness of an optional string: `None` and `""` are falsy. -/
def truthyOpt (o : Option (List Char)) : Bool :=
  match o with
  | none => false
  | some s => !s.isEmpty

/-- Lines 115-122 of `animal_list_scraper.py`: `sex, age = "", ""`, then if
the `p` tag is present, `parts = [part.strip() for part in text.split(',')]`,
`sex = parts[0]` when parts is nonempty and `age = parts[1]` when there are
at least two parts. -/
def extractSexAge (ptext : Option (List Char)) : List Char × List Char :=
  match ptext with
  | none => ([], [])
  | some t =>
    let parts := (splitOnComma t).map pyStrip
    match parts with
    | [] => ([], [])
    | s :: rest =>
      match rest with
      | [] => (s, [])
      | a :: _ => (s, a)

/-- Lines 128-147 of `animal_list_scraper.py`: the
`if not all([pet_id, link, name, sex, age, photo_url]): continue` required-field
check followed by construction of the record dict. Returns `none` when the
card is discarded. -/
def buildRecord (c : AnimalCard) : Option AnimalRecord :=
  let sa := extractSexAge c.ptext
  if truthyOpt c.pet_id && truthyOpt c.link && truthyOpt c.name &&
      !sa.1.isEmpty && !sa.2.isEmpty && truthyOpt c.photo_url then
    some { pet_id := c.pet_id.getD [], link := c.link.getD [],
           name := c.name.getD [], sex := sa.1, age := sa.2,
           photo_url := c.photo_url.getD [] }
  else
    none

/-- Lines 136-147 of `animal_list_scraper.py`: `if link in animal_data:
continue` then `animal_data[link] = {...}`. The insertion-ordered dict is
modelled as a list of records in insertion order. -/
def insertCard (m : List AnimalRecord) (r : AnimalRecord) : List AnimalRecord :=
  if m.any (fun y => decide (y.link = r.link)) then m else m ++ [r]

/-- The per-page card loop of `extract_animal_data` (lines 96-147): validate
each card in order and insert the surviving records into the accumulator. -/
def processCards (cards : List AnimalCard) (m : List AnimalRecord) : List AnimalRecord :=
  match cards with
  | [] => m
  | c :: cs =>
    match buildRecord c with
    | none => processCards cs m
    | some r => processCards cs (insertCard m r)

/-- Outcome of one page visit in `extract_animal_data`: either the page is
fetched and parsed, yielding its cards and the optional next-page link
(lines 90-152), or a transport/parse exception is raised (lines 154-159)
after `done` cards of that page were already processed — `done = []` for a
transport error at `session.get`. -/
inductive PageResult where
  | page (cards : List AnimalCard) (next : Option String)
  | err (done : List AnimalCard)
deriving Repr, DecidableEq

/-- The `while current_url:` pagination loop of `extract_animal_data`
(lines 88-162): visit the current page; on an exception process the cards
already handled and `break`; otherwise process the page's cards and advance
to the declared next link (`None` terminates the loop). `fuel` bounds the
number of iterations modelled; the source loop has no such bound. -/
def crawlFrom (site : String → PageResult) : Nat → Option String → List AnimalRecord → List AnimalRecord
  | _, none, m => m
  | 0, some _, m => m
  | Nat.succ fuel, some url, m =>
    match site url with
    | PageResult.err done => processCards done m
    | PageResult.page cards next => crawlFrom site fuel next (processCards cards m)

/-- A linear chain of successful page visits: starting from the first url,
each listed page is fetched successfully with the given cards and points to
the next element's url, ending at `uend`. -/
def chainOk (site : String → PageResult) : String → List (String × List AnimalCard) → String → Prop
  | u0, [], uend => u0 = uend
  | u0, (u, cards) :: rest, uend =>
    u0 = u ∧ ∃ next, site u = PageResult.page cards (some next) ∧ chainOk site next rest uend

/-- Lines 73-88 of `adoption_profiles_scraper.py`, `parse_age_gender`:
`if not text: return None, None` (both `None` and the empty string are
falsy), else split on commas, strip each part, and return
`(parts[0] if parts else None, parts[1] if len(parts) > 1 else None)`. -/
def parse_age_gender (text : Option (List Char)) : Option (List Char) × Option (List Char) :=
  match text with
  | none => (none, none)
  | some t =>
    if t.isEmpty then (none, none)
    else
      let parts := (splitOnComma t).map pyStrip
      (parts.head?, parts[1]?)

/-- One carousel slide of a profile page (lines 123-136 of
`adoption_profiles_scraper.py`): `videoBlock` is the `.videoBlock.img`
lookup, carrying its optional `data-link` attribute when present; `img` is
the `.img img` lookup, carrying its optional `data-src` attribute. -/
structure Slide where
  videoBlock : Option (Option String)
  img : Option (Option String)
deriving Repr, DecidableEq

/-- The `.profile-history` div: `pTag` is the optional
`p.body-secondary` child, carrying its `get_text(separator='\n')` text. -/
structure HistoryDiv where
  pTag : Option (List Char)
deriving Repr, DecidableEq

/-- The `div.adoptionProfilePage` detail container, holding the outcomes of
the DOM queries `extract_adoption_profile` performs: the `.profile-head h3`
name text, the `.profile-head .body-secondary` age/gender text, the slider
slides, the `.profile-skills` span texts (absent when the section is
absent), and the `.profile-history` div. -/
structure ProfileDiv where
  nameTag : Option (List Char)
  ageGenderTag : Option (List Char)
  slides : List Slide
  aboutSection : Option (List (List Char))
  historyDiv : Option HistoryDiv
deriving Repr, DecidableEq

/-- The dict returned by `extract_adoption_profile` on success. -/
structure ProfileInfo where
  name : Option (List Char)
  age : Option (List Char)
  gender : Option (List Char)
  photos : List String
  videos : List String
  about : List (List Char)
  history : Option (List Char)
deriving Repr, DecidableEq

/-- Lines 121-138 of `adoption_profiles_scraper.py`: the slide loop. A slide
with a (truthy) video block contributes its `data-link` to the videos when
that attribute is present and nonempty; otherwise its `.img img` tag, when
present, contributes a present nonempty `data-src` to the photos. -/
def collectMedia (slides : List Slide) : List String × List String :=
  slides.foldl
    (fun acc s =>
      match s.videoBlock with
      | some vb =>
        match vb with
        | some dl => if dl.isEmpty then acc else (acc.1, acc.2 ++ [dl])
        | none => acc
      | none =>
        match s.img with
        | some it =>
          match it with
          | some u => if u.isEmpty then acc else (acc.1 ++ [u], acc.2)
          | none => acc
        | none => acc)
    ([], [])

/-- Lines 91-158 of `adoption_profiles_scraper.py`,
`extract_adoption_profile`: the argument is the result of the
`soup.find('div', class_='adoptionProfilePage')` lookup; `none` (container
absent) returns `None`. Otherwise: strip the optional name text, strip and
split the optional age/gender text, collect slide media, strip each about
span (empty list when the section is absent), and normalize the optional
history text by `strip()` then `replace('\n','').replace('\r','')`. -/
def extract_adoption_profile (html : Option ProfileDiv) : Option ProfileInfo :=
  match html with
  | none => none
  | some profile =>
    let ag := parse_age_gender (profile.ageGenderTag.map pyStrip)
    let media := collectMedia profile.slides
    some
      { name := profile.nameTag.map pyStrip
        age := ag.1
        gender := ag.2
        photos := media.1
        videos := media.2
        about :=
          match profile.aboutSection with
          | none => []
          | some spans => spans.map pyStrip
        history :=
          match profile.historyDiv with
          | none => none
          | some hd =>
            match hd.pTag with
            | none => none
            | some t => some (removeChar '\r' (removeChar '\n' (pyStrip t))) }

/-- What one fetch task observes: either some exception was raised during
the request, the body read, or parsing (`except Exception` at lines 200-202),
or a response arrived with the given status whose body parses to the given
optional detail container. -/
inductive FetchOutcome where
  | exc
  | resp (status : Nat) (body : Option ProfileDiv)
deriving Repr, DecidableEq

/-- The shared counters dict of `main_async` (line 218). -/
structure Counters where
  links : Nat
  success : Nat
  fail : Nat
  missing_info : Nat
deriving Repr, DecidableEq

/-- One entry of the shared results list (lines 181-191). -/
structure ResultEntry where
  pet_id : String
  link : String
  name : Option (List Char)
  age : Option (List Char)
  gender : Option (List Char)
  photos : List String
  videos : List String
  about : List (List Char)
  history : Option (List Char)
deriving Repr, DecidableEq

/-- Lines 161-202 of `adoption_profiles_scraper.py`, `fetch_profile`: the
state transformation a single task applies to the shared results list and
counters dict, as a function of its fetch outcome. Status 200 with a
non-null extraction appends one entry and increments `success`; status 200
with a null extraction increments `missing_info`; any other status, or an
exception, increments `fail`. The function is total: no outcome escapes the
classification (the source catches every `Exception`). -/
def fetch_profile (pet_id url : String) (o : FetchOutcome)
    (results : List ResultEntry) (counters : Counters) :
    List ResultEntry × Counters :=
  match o with
  | FetchOutcome.exc => (results, { counters with fail := counters.fail + 1 })
  | FetchOutcome.resp status body =>
    if status = 200 then
      match extract_adoption_profile body with
      | some info =>
        (results ++
          [{ pet_id := pet_id, link := url, name := info.name, age := info.age,
             gender := info.gender, photos := info.photos,
             videos := info.videos, about := info.about,
             history := info.history }],
         { counters with success := counters.success + 1 })
      | none => (results, { counters with missing_info := counters.missing_info + 1 })
    else
      (results, { counters with fail := counters.fail + 1 })

/-- The completion of all spawned tasks (`await asyncio.gather(*tasks)` at
line 254): each task, in completion order, applies its `fetch_profile`
state transformation to the shared results list and counters. -/
def runTasks (tasks : List (String × String × FetchOutcome))
    (results : List ResultEntry) (counters : Counters) :
    List ResultEntry × Counters :=
  match tasks with
  | [] => (results, counters)
  | (pid, url, o) :: rest =>
    let st := fetch_profile pid url o results counters
    runTasks rest st.1 st.2

/-- The observable steps of one `fetch_profile` task body, in program
order: enter `async with semaphore`, issue `session.get`, read the body
(`await resp.text()`), run `extract_adoption_profile`, append to the results
list, bump one counter, exit the semaphore block. -/
inductive FPEvent where
  | acquireGate
  | httpGet
  | readBody
  | extractHtml
  | appendResult
  | bumpSuccess
  | bumpFail
  | bumpMissing
  | releaseGate
deriving Repr, DecidableEq

/-- The event trace of one `fetch_profile` task (lines 173-202 of
`adoption_profiles_scraper.py`), transcribed from the source's statement
order: the whole `try`/`except` body — body read, extraction, result append
and every counter update included — sits inside the `async with semaphore:`
block, so `releaseGate` is always the final event. -/
def fetchProfileTrace (o : FetchOutcome) : List FPEvent :=
  [FPEvent.acquireGate] ++
    (match o with
     | FetchOutcome.exc => [FPEvent.httpGet, FPEvent.bumpFail]
     | FetchOutcome.resp status body =>
       [FPEvent.httpGet] ++
         (if status = 200 then
            [FPEvent.readBody, FPEvent.extractHtml] ++
              (match extract_adoption_profile body with
               | some _ => [FPEvent.appendResult, FPEvent.bumpSuccess]
               | none => [FPEvent.bumpMissing])
          else [FPEvent.bumpFail])) ++
    [FPEvent.releaseGate]

/-- The events a task executes while holding its semaphore slot: those
strictly between the `acquireGate` event and the following `releaseGate`. -/
def eventsInsideGate (tr : List FPEvent) : List FPEvent :=
  (((tr.dropWhile (fun e => !(e == FPEvent.acquireGate))).drop 1).takeWhile
    (fun e => !(e == FPEvent.releaseGate)))

/-- The property claimed by the spec for C2: extraction and the counter
update of a task never execute while the task holds a gate slot. -/
def extractionOutsideGate (o : FetchOutcome) : Prop :=
  FPEvent.extractHtml ∉ eventsInsideGate (fetchProfileTrace o) ∧
  FPEvent.bumpSuccess ∉ eventsInsideGate (fetchProfileTrace o) ∧
  FPEvent.bumpFail ∉ eventsInsideGate (fetchProfileTrace o) ∧
  FPEvent.bumpMissing ∉ eventsInsideGate (fetchProfileTrace o)

/-- A concrete detail container with a history paragraph, used to evaluate
the embedding on explicit inputs. -/
def samplePage : ProfileDiv :=
  { nameTag := some ("Piksel".toList)
    ageGenderTag := none
    slides := []
    aboutSection := none
    historyDiv := some { pTag := some ("Line1\nLine2\r\n".toList) } }

/-- A concrete successful fetch outcome over `samplePage`. -/
def sampleOutcome : FetchOutcome :=
  FetchOutcome.resp 200 (some samplePage)

/-- The state of the bounded-concurrency pool of `main_async`: the semaphore
counter (`asyncio.Semaphore(concurrency)`, line 219) together with each
spawned task's phase. A task is `pending` before entering
`async with semaphore`, `inflight` while executing the semaphore body —
which contains its entire HTTP fetch — and `done` after exiting it. -/
inductive TaskPhase where
  | pending
  | inflight
  | done
deriving Repr, DecidableEq

/-- Pool state: semaphore value plus the phases of the spawned tasks. -/
structure PoolState where
  sem : Nat
  tasks : List TaskPhase
deriving Repr, DecidableEq

/-- The initial pool state: semaphore at the concurrency limit `n`, all `m`
spawned tasks pending. -/
def initPool (n m : Nat) : PoolState :=
  { sem := n, tasks := List.replicate m TaskPhase.pending }

/-- Number of tasks currently executing a fetch. -/
def countInflight (s : PoolState) : Nat :=
  s.tasks.countP (fun t => decide (t = TaskPhase.inflight))

/-- One scheduler step under the cooperative async runtime: a pending task
acquires the semaphore when its value is positive (decrementing it) and
starts its fetch, or an inflight task finishes its semaphore body
(re-incrementing the value). -/
inductive PoolStep : PoolState → PoolState → Prop where
  | acquire (s : PoolState) (i : Nat)
      (hp : s.tasks[i]? = some TaskPhase.pending) (hs : 0 < s.sem) :
      PoolStep s { sem := s.sem - 1, tasks := s.tasks.set i TaskPhase.inflight }
  | finish (s : PoolState) (i : Nat)
      (hf : s.tasks[i]? = some TaskPhase.inflight) :
      PoolStep s { sem := s.sem + 1, tasks := s.tasks.set i TaskPhase.done }

/-- Reachability of a pool state from the initial state by scheduler steps. -/
def PoolReachable (n m : Nat) (s : PoolState) : Prop :=
  Relation.ReflTransGen PoolStep (initPool n m) s

theorem fetch_profile_step (pid url : String) (o : FetchOutcome)
    (rs : List ResultEntry) (cnt : Counters) :
    ((fetch_profile pid url o rs cnt).2 = { cnt with success := cnt.success + 1 } ∧
      ∃ e, (fetch_profile pid url o rs cnt).1 = rs ++ [e]) ∨
    ((fetch_profile pid url o rs cnt).2 = { cnt with fail := cnt.fail + 1 } ∧
      (fetch_profile pid url o rs cnt).1 = rs) ∨
    ((fetch_profile pid url o rs cnt).2 = { cnt with missing_info := cnt.missing_info + 1 } ∧
      (fetch_profile pid url o rs cnt).1 = rs) := by
  cases o with
  | exc => exact Or.inr (Or.inl ⟨rfl, rfl⟩)
  | resp status body =>
    by_cases hs : status = 200
    · subst hs
      cases hx : extract_adoption_profile body with
      | none =>
        refine Or.inr (Or.inr ?_)
        simp [fetch_profile, hx]
      | some info =>
        refine Or.inl ⟨?_, ?_⟩
        · simp [fetch_profile, hx]
        · refine ⟨{ pet_id := pid, link := url, name := info.name, age := info.age,
                    gender := info.gender, photos := info.photos, videos := info.videos,
                    about := info.about, history := info.history }, ?_⟩
          simp [fetch_profile, hx]
    · refine Or.inr (Or.inl ?_)
      constructor
      · simp [fetch_profile, hs]
      · simp [fetch_profile, hs]

theorem runTasks_counts (tasks : List (String × String × FetchOutcome))
    (rs : List ResultEntry) (cnt : Counters) :
    (runTasks tasks rs cnt).2.links = cnt.links ∧
    (runTasks tasks rs cnt).2.success + (runTasks tasks rs cnt).2.fail +
        (runTasks tasks rs cnt).2.missing_info =
      cnt.success + cnt.fail + cnt.missing_info + tasks.length ∧
    (runTasks tasks rs cnt).1.length + cnt.success =
      rs.length + (runTasks tasks rs cnt).2.success := by
  induction tasks generalizing rs cnt with
  | nil => simp [runTasks]
  | cons t rest ih =>
    obtain ⟨pid, url, o⟩ := t
    have hstep := fetch_profile_step pid url o rs cnt
    have hr : runTasks ((pid, url, o) :: rest) rs cnt =
        runTasks rest (fetch_profile pid url o rs cnt).1
          (fetch_profile pid url o rs cnt).2 := rfl
    rcases hstep with ⟨h2, e, h1⟩ | ⟨h2, h1⟩ | ⟨h2, h1⟩
    · rw [hr, h1, h2]
      obtain ⟨ha, hb, hc⟩ := ih (rs ++ [e])
        { links := cnt.links, success := cnt.success + 1, fail := cnt.fail,
          missing_info := cnt.missing_info }
      simp at ha hb hc
      refine ⟨ha, ?_, ?_⟩
      · simp only [List.length_cons]
        omega
      · omega
    · rw [hr, h1, h2]
      obtain ⟨ha, hb, hc⟩ := ih rs
        { links := cnt.links, success := cnt.success, fail := cnt.fail + 1,
          missing_info := cnt.missing_info }
      simp at ha hb hc
      refine ⟨ha, ?_, ?_⟩
      · simp only [List.length_cons]
        omega
      · omega
    · rw [hr, h1, h2]
      obtain ⟨ha, hb, hc⟩ := ih rs
        { links := cnt.links, success := cnt.success, fail := cnt.fail,
          missing_info := cnt.missing_info + 1 }
      simp at ha hb hc
      refine ⟨ha, ?_, ?_⟩
      · simp only [List.length_cons]
        omega
      · omega

/-- C1: per-task outcome classification of `fetch_profile`. Status 200 with
non-null extraction appends exactly one entry and increments only `success`;
status 200 with null extraction appends nothing and increments only
`missing_info`; a non-200 status or an exception during fetch or parse
appends nothing and increments only `fail`. The embedding of the task body
is a total function — every outcome, the exception case included, lands in
one of these classes, so no exception propagates to the caller. -/
theorem fetch_profile_outcome_classification (pid url : String)
    (o : FetchOutcome) (rs : List ResultEntry) (cnt : Counters) :
    (∀ b, o = FetchOutcome.resp 200 b → (extract_adoption_profile b).isSome = true →
      (∃ e, (fetch_profile pid url o rs cnt).1 = rs ++ [e]) ∧
      (fetch_profile pid url o rs cnt).2 = { cnt with success := cnt.success + 1 }) ∧
    (∀ b, o = FetchOutcome.resp 200 b → extract_adoption_profile b = none →
      (fetch_profile pid url o rs cnt).1 = rs ∧
      (fetch_profile pid url o rs cnt).2 = { cnt with missing_info := cnt.missing_info + 1 }) ∧
    (∀ s b, o = FetchOutcome.resp s b → s ≠ 200 →
      (fetch_profile pid url o rs cnt).1 = rs ∧
      (fetch_profile pid url o rs cnt).2 = { cnt with fail := cnt.fail + 1 }) ∧
    (o = FetchOutcome.exc →
      (fetch_profile pid url o rs cnt).1 = rs ∧
      (fetch_profile pid url o rs cnt).2 = { cnt with fail := cnt.fail + 1 }) := by
  refine ⟨?_, ?_, ?_, ?_⟩
  · intro b hb hsome
    subst hb
    cases hx : extract_adoption_profile b with
    | none => rw [hx] at hsome; simp at hsome
    | some info =>
      constructor
      · refine ⟨{ pet_id := pid, link := url, name := info.name, age := info.age,
                  gender := info.gender, photos := info.photos, videos := info.videos,
                  about := info.about, history := info.history }, ?_⟩
        simp [fetch_profile, hx]
      · simp [fetch_profile, hx]
  · intro b hb hnone
    subst hb
    constructor
    · simp [fetch_profile, hnone]
    · simp [fetch_profile, hnone]
  · intro s b hb hs
    subst hb
    constructor
    · simp [fetch_profile, hs]
    · simp [fetch_profile, hs]
  · intro hb
    subst hb
    exact ⟨rfl, rfl⟩

theorem fetch_profile_outcome_classification_witness :
    (fetch_profile "1728" "u" sampleOutcome [] ⟨0, 0, 0, 0⟩).2 =
      { links := 0, success := 1, fail := 0, missing_info := 0 } :=
  ((fetch_profile_outcome_classification "1728" "u" sampleOutcome []
      ⟨0, 0, 0, 0⟩).1 (some samplePage) rfl (by decide)).2

/-- C9: every task increments exactly one of the three outcome counters
exactly once and appends one result entry exactly when it increments
`success`; consequently, running all spawned tasks (in any completion order)
from the state the spawn loop leaves behind — `links` equal to the number of
spawned tasks, the outcome counters zero, the results list empty — ends
with `links = success + fail + missing_info` and with the results list
(the list written to JSON) of length `success`. -/
theorem run_counters_balance :
    (∀ (pid url : String) (o : FetchOutcome) (rs : List ResultEntry) (cnt : Counters),
      ((fetch_profile pid url o rs cnt).2 = { cnt with success := cnt.success + 1 } ∧
        ∃ e, (fetch_profile pid url o rs cnt).1 = rs ++ [e]) ∨
      ((fetch_profile pid url o rs cnt).2 = { cnt with fail := cnt.fail + 1 } ∧
        (fetch_profile pid url o rs cnt).1 = rs) ∨
      ((fetch_profile pid url o rs cnt).2 = { cnt with missing_info := cnt.missing_info + 1 } ∧
        (fetch_profile pid url o rs cnt).1 = rs)) ∧
    (∀ tasks : List (String × String × FetchOutcome),
      (runTasks tasks [] ⟨tasks.length, 0, 0, 0⟩).2.links =
        (runTasks tasks [] ⟨tasks.length, 0, 0, 0⟩).2.success +
        (runTasks tasks [] ⟨tasks.length, 0, 0, 0⟩).2.fail +
        (runTasks tasks [] ⟨tasks.length, 0, 0, 0⟩).2.missing_info ∧
      (runTasks tasks [] ⟨tasks.length, 0, 0, 0⟩).1.length =
        (runTasks tasks [] ⟨tasks.length, 0, 0, 0⟩).2.success) := by
  constructor
  · exact fetch_profile_step
  · intro tasks
    obtain ⟨ha, hb, hc⟩ := runTasks_counts tasks [] ⟨tasks.length, 0, 0, 0⟩
    simp at ha hb hc
    constructor
    · omega
    · omega

/-- C2 counterexample: the claim says extraction and the counter update run
outside the admission gate, but in `fetch_profile` the whole `try` body —
extraction and counter update included — sits inside the
`async with semaphore:` block. On the concrete successful outcome
`sampleOutcome`, both the extraction event and the success counter update
occur strictly between `acquireGate` and `releaseGate`. -/
theorem extraction_inside_gate_cex : ¬ extractionOutsideGate sampleOutcome := by
  intro h
  exact h.1 (by decide)

/-- C2 amended: extraction and the counter update are performed while the
task still holds its gate slot, and the gate is released only afterwards:
for every outcome, `releaseGate` is the trace's final event and every event
other than the acquire and the release itself executes inside the gate. -/
theorem gate_released_after_extraction (o : FetchOutcome) :
    (fetchProfileTrace o).getLast? = some FPEvent.releaseGate ∧
    ∀ e ∈ fetchProfileTrace o, e ≠ FPEvent.acquireGate → e ≠ FPEvent.releaseGate →
      e ∈ eventsInsideGate (fetchProfileTrace o) := by
  cases o with
  | exc => decide
  | resp status body =>
    by_cases hs : status = 200
    · subst hs
      cases hx : extract_adoption_profile body with
      | none =>
        simp only [fetchProfileTrace, if_pos rfl, hx]
        decide
      | some info =>
        simp only [fetchProfileTrace, if_pos rfl, hx]
        decide
    · simp only [fetchProfileTrace, if_neg hs]
      decide

theorem gate_released_after_extraction_witness :
    FPEvent.extractHtml ∈ eventsInsideGate (fetchProfileTrace sampleOutcome) :=
  (gate_released_after_extraction sampleOutcome).2 FPEvent.extractHtml
    (by decide) (by decide) (by decide)

theorem poolstep_preserves_budget (n : Nat) (s s' : PoolState)
    (hinv : countInflight s + s.sem = n) (hstep : PoolStep s s') :
    countInflight s' + s'.sem = n := by
  cases hstep with
  | acquire i hp hs =>
    have hi : i < s.tasks.length := by
      by_contra hge
      rw [List.getElem?_eq_none (Nat.le_of_not_lt hge)] at hp
      exact Option.noConfusion hp
    have hget : s.tasks[i] = TaskPhase.pending := by
      have := List.getElem?_eq_getElem hi
      rw [this] at hp
      exact Option.some.inj hp
    have hcount := List.countP_set (fun t => decide (t = TaskPhase.inflight)) s.tasks i
      TaskPhase.inflight hi
    rw [hget] at hcount
    simp at hcount
    simp only [countInflight] at hinv ⊢
    simp only [hcount]
    omega
  | finish i hf =>
    have hi : i < s.tasks.length := by
      by_contra hge
      rw [List.getElem?_eq_none (Nat.le_of_not_lt hge)] at hf
      exact Option.noConfusion hf
    have hget : s.tasks[i] = TaskPhase.inflight := by
      have := List.getElem?_eq_getElem hi
      rw [this] at hf
      exact Option.some.inj hf
    have hcount := List.countP_set (fun t => decide (t = TaskPhase.inflight)) s.tasks i
      TaskPhase.done hi
    rw [hget] at hcount
    simp at hcount
    have hpos : 0 < s.tasks.countP (fun t => decide (t = TaskPhase.inflight)) := by
      have : s.tasks[i] ∈ s.tasks := List.getElem_mem hi
      rw [hget] at this
      exact List.countP_pos_iff.mpr ⟨TaskPhase.inflight, this, by decide⟩
    simp only [countInflight] at hinv ⊢
    simp only [hcount]
    omega

theorem pool_invariant (n m : Nat) (s : PoolState)
    (h : PoolReachable n m s) : countInflight s + s.sem = n := by
  induction h with
  | refl =>
    simp only [countInflight, initPool]
    rw [List.countP_eq_zero.mpr]
    · omega
    · intro t ht
      rw [List.eq_of_mem_replicate ht]
      decide
  | tail hsteps hstep ih =>
    exact poolstep_preserves_budget n _ _ ih hstep

/-- C3: with concurrency limit `n` and `m` spawned tasks, in every reachable
state of the semaphore-scheduled pool at most `n` tasks are concurrently
inside the gated fetch section — i.e. at most `n` fetches are in flight. -/
theorem at_most_n_inflight (n m : Nat) (s : PoolState)
    (_hm : n < m) (h : PoolReachable n m s) : countInflight s ≤ n := by
  have := pool_invariant n m s h
  omega

theorem at_most_n_inflight_witness : countInflight (initPool 2 3) ≤ 2 :=
  at_most_n_inflight 2 3 (initPool 2 3) (by decide) Relation.ReflTransGen.refl

theorem splitOnComma_ne_nil (t : List Char) : splitOnComma t ≠ [] := by
  cases t with
  | nil => simp [splitOnComma]
  | cons c cs =>
    simp only [splitOnComma]
    cases splitOnComma cs with
    | nil => simp
    | cons h t2 =>
      by_cases hc : c = ','
      · simp [hc]
      · simp [hc]

theorem splitOnComma_no_comma (t : List Char) (h : hasComma t = false) :
    splitOnComma t = [t] := by
  induction t with
  | nil => rfl
  | cons c cs ih =>
    simp only [hasComma, List.any_cons, Bool.or_eq_false_iff] at h
    obtain ⟨hc, hcs⟩ := h
    have hc2 : ¬ c = ',' := by
      intro hcc
      rw [hcc] at hc
      simp at hc
    have hsp := ih hcs
    simp only [splitOnComma, hsp]
    simp [hc2]

theorem splitOnComma_comma (t : List Char) (h : hasComma t = true) :
    splitOnComma t =
      t.takeWhile (fun c => decide (c ≠ ',')) ::
        splitOnComma ((t.dropWhile (fun c => decide (c ≠ ','))).drop 1) := by
  induction t with
  | nil => simp [hasComma] at h
  | cons c cs ih =>
    by_cases hc : c = ','
    · subst hc
      simp only [List.takeWhile_cons, List.dropWhile_cons]
      simp only [decide_not, decide_eq_true_eq]
      simp only [splitOnComma]
      cases hsplit : splitOnComma cs with
      | nil => exact absurd hsplit (splitOnComma_ne_nil cs)
      | cons h2 t2 =>
        simp [← hsplit]
    · have hcs : hasComma cs = true := by
        simp only [hasComma, List.any_cons] at h
        rcases Bool.or_eq_true_iff.mp h with h1 | h1
        · exact absurd (by simpa using h1) hc
        · exact h1
      simp only [List.takeWhile_cons, List.dropWhile_cons]
      have hb : (fun x => decide (x ≠ ',')) c = true := by simpa using hc
      simp only [splitOnComma, ih hcs]
      simp [hc, hb]

theorem splitOnComma_head (t : List Char) :
    ∃ rest, splitOnComma t = t.takeWhile (fun c => decide (c ≠ ',')) :: rest := by
  by_cases h : hasComma t = true
  · exact ⟨_, splitOnComma_comma t h⟩
  · have h2 : hasComma t = false := by simpa using h
    refine ⟨[], ?_⟩
    rw [splitOnComma_no_comma t h2]
    have : t.takeWhile (fun c => decide (c ≠ ',')) = t := by
      rw [List.takeWhile_eq_self_iff]
      intro c hcmem
      simp only [hasComma] at h2
      have := List.any_eq_false.mp h2 c hcmem
      simpa using this
    rw [this]

/-- The spec's description of the sex/age split, written from its words:
"sex is the trimmed segment before the first comma and age is the trimmed
remainder after the first comma". -/
def specSexAgeFirstComma (t : List Char) : List Char × List Char :=
  (pyStrip (t.takeWhile (fun c => decide (c ≠ ','))),
   pyStrip ((t.dropWhile (fun c => decide (c ≠ ','))).drop 1))

/-- C4 counterexample: on the text "a, b, c" — which contains two commas —
the code's split yields age "b" (the segment between the first and second
comma), not the claim's "trimmed remainder after the first comma", which
would be "b, c". -/
theorem sexAge_not_first_comma_remainder_cex :
    (extractSexAge (some ("a, b, c".toList))).2 = "b".toList ∧
    (specSexAgeFirstComma ("a, b, c".toList)).2 = "b, c".toList ∧
    extractSexAge (some ("a, b, c".toList)) ≠ specSexAgeFirstComma ("a, b, c".toList) := by
  decide

/-- C4 amended: the combined "sex, age" text is split on every comma. For a
text containing at least one comma, sex is the trimmed segment before the
first comma and age is the trimmed segment strictly between the first comma
and the next comma (or the end of the text); these agree with the claim
whenever the text has exactly one comma. For a text with no comma, sex is
the trimmed full text and age is the empty string. -/
theorem sexAge_splits_on_commas (t : List Char) :
    (hasComma t = true →
      extractSexAge (some t) =
        (pyStrip (t.takeWhile (fun c => decide (c ≠ ','))),
         pyStrip (((t.dropWhile (fun c => decide (c ≠ ','))).drop 1).takeWhile
           (fun c => decide (c ≠ ','))))) ∧
    (hasComma t = false → extractSexAge (some t) = (pyStrip t, [])) := by
  constructor
  · intro hc
    obtain ⟨rest, hrest⟩ := splitOnComma_head ((t.dropWhile (fun c => decide (c ≠ ','))).drop 1)
    simp only [extractSexAge, splitOnComma_comma t hc, hrest, List.map_cons]
  · intro hc
    simp only [extractSexAge, splitOnComma_no_comma t hc, List.map_cons, List.map_nil]

theorem sexAge_splits_on_commas_witness :
    extractSexAge (some ("Хлопчик, 1 місяць".toList)) =
      ("Хлопчик".toList, "1 місяць".toList) := by
  have h := (sexAge_splits_on_commas ("Хлопчик, 1 місяць".toList)).1 (by decide)
  rw [h]
  decide

/-- Whether a card's combined sex/age text lacks a comma (an absent `p` tag
counts as lacking one). -/
def cardTextNoComma (c : AnimalCard) : Bool :=
  match c.ptext with
  | none => true
  | some t => !(hasComma t)

theorem processCards_skip (c : AnimalCard) (hb : buildRecord c = none)
    (cs1 cs2 : List AnimalCard) (m : List AnimalRecord) :
    processCards (cs1 ++ c :: cs2) m = processCards (cs1 ++ cs2) m := by
  induction cs1 generalizing m with
  | nil => simp [processCards, hb]
  | cons x rest ih =>
    simp only [List.cons_append, processCards]
    cases buildRecord x with
    | none => exact ih m
    | some r => exact ih (insertCard m r)

/-- C10: a card whose `p` text contains no comma (or whose `p` tag is
absent) gets the empty-string age; the required-field check therefore
discards it — `buildRecord` returns `none` — and its presence anywhere in a
card sequence leaves the crawler's accumulated output unchanged. -/
theorem no_comma_card_discarded (c : AnimalCard) (h : cardTextNoComma c = true) :
    (extractSexAge c.ptext).2 = [] ∧
    buildRecord c = none ∧
    ∀ cs1 cs2 m, processCards (cs1 ++ c :: cs2) m = processCards (cs1 ++ cs2) m := by
  have hage : (extractSexAge c.ptext).2 = [] := by
    cases hp : c.ptext with
    | none => simp [extractSexAge]
    | some t =>
      simp only [cardTextNoComma, hp, Bool.not_eq_true'] at h
      simp [extractSexAge, splitOnComma_no_comma t h]
  have hb : buildRecord c = none := by
    simp only [buildRecord]
    rw [hage]
    simp
  exact ⟨hage, hb, fun cs1 cs2 m => processCards_skip c hb cs1 cs2 m⟩

/-- A concrete card whose sex/age text has no comma. -/
def cardNoComma : AnimalCard :=
  { pet_id := some ("17".toList), link := some ("https://x".toList),
    name := some ("Kit".toList), ptext := some ("Хлопчик".toList),
    photo_url := some ("p.jpg".toList) }

theorem no_comma_card_discarded_witness :
    processCards [cardNoComma] [] = [] := by
  have h := (no_comma_card_discarded cardNoComma (by decide)).2.2 [] [] []
  simpa using h

theorem mem_insertCard (m : List AnimalRecord) (x r : AnimalRecord)
    (h : r ∈ insertCard m x) : r ∈ m ∨ r = x := by
  simp only [insertCard] at h
  by_cases hx : m.any (fun y => decide (y.link = x.link)) = true
  · rw [if_pos hx] at h
    exact Or.inl h
  · rw [if_neg hx] at h
    rcases List.mem_append.mp h with h1 | h1
    · exact Or.inl h1
    · exact Or.inr (List.mem_singleton.mp h1)

theorem mem_processCards (cs : List AnimalCard) (m : List AnimalRecord)
    (r : AnimalRecord) (h : r ∈ processCards cs m) :
    r ∈ m ∨ ∃ c ∈ cs, buildRecord c = some r := by
  induction cs generalizing m with
  | nil => exact Or.inl h
  | cons c rest ih =>
    simp only [processCards] at h
    cases hb : buildRecord c with
    | none =>
      rw [hb] at h
      rcases ih m h with h1 | ⟨c2, hc2, hb2⟩
      · exact Or.inl h1
      · exact Or.inr ⟨c2, List.mem_cons_of_mem c hc2, hb2⟩
    | some x =>
      rw [hb] at h
      rcases ih (insertCard m x) h with h1 | ⟨c2, hc2, hb2⟩
      · rcases mem_insertCard m x r h1 with h2 | h2
        · exact Or.inl h2
        · exact Or.inr ⟨c, List.mem_cons_self c rest, by rw [hb, h2]⟩
      · exact Or.inr ⟨c2, List.mem_cons_of_mem c hc2, hb2⟩

theorem truthyOpt_getD_ne_nil (o : Option (List Char)) (h : truthyOpt o = true) :
    o.getD [] ≠ [] := by
  cases o with
  | none => simp [truthyOpt] at h
  | some s =>
    simp only [truthyOpt, Bool.not_eq_true', List.isEmpty_eq_false] at h
    simpa using h

theorem buildRecord_fields (c : AnimalCard) (r : AnimalRecord)
    (h : buildRecord c = some r) :
    r.pet_id ≠ [] ∧ r.link ≠ [] ∧ r.name ≠ [] ∧ r.sex ≠ [] ∧ r.age ≠ [] ∧
      r.photo_url ≠ [] := by
  simp only [buildRecord] at h
  by_cases hcond : (truthyOpt c.pet_id && truthyOpt c.link && truthyOpt c.name &&
      !(extractSexAge c.ptext).1.isEmpty && !(extractSexAge c.ptext).2.isEmpty &&
      truthyOpt c.photo_url) = true
  · rw [if_pos hcond] at h
    have hr := Option.some.inj h
    simp only [Bool.and_eq_true, Bool.not_eq_true', List.isEmpty_eq_false] at hcond
    obtain ⟨⟨⟨⟨⟨h1, h2⟩, h3⟩, h4⟩, h5⟩, h6⟩ := hcond
    subst hr
    exact ⟨truthyOpt_getD_ne_nil _ h1, truthyOpt_getD_ne_nil _ h2,
      truthyOpt_getD_ne_nil _ h3, h4, h5, truthyOpt_getD_ne_nil _ h6⟩
  · rw [if_neg hcond] at h
    exact Option.noConfusion h

/-- C8: every record in the crawler's accumulated output has all six fields
non-empty. A card failing the required-field check is never inserted: each
output record arises from a card whose `buildRecord` passed the
`all([pet_id, link, name, sex, age, photo_url])` check, which forces all six
field values non-empty. -/
theorem output_fields_nonempty (cs : List AnimalCard) (r : AnimalRecord)
    (h : r ∈ processCards cs []) :
    r.pet_id ≠ [] ∧ r.link ≠ [] ∧ r.name ≠ [] ∧ r.sex ≠ [] ∧ r.age ≠ [] ∧
      r.photo_url ≠ [] := by
  rcases mem_processCards cs [] r h with h1 | ⟨c, _, hb⟩
  · simp at h1
  · exact buildRecord_fields c r hb

/-- A concrete well-formed card. -/
def sampleCard : AnimalCard :=
  { pet_id := some ("1728".toList), link := some ("https://x".toList),
    name := some ("Piksel".toList), ptext := some ("Хлопчик, 1 місяць".toList),
    photo_url := some ("p.jpg".toList) }

/-- The record `sampleCard` builds. -/
def sampleRecord : AnimalRecord :=
  { pet_id := "1728".toList, link := "https://x".toList, name := "Piksel".toList,
    sex := "Хлопчик".toList, age := "1 місяць".toList, photo_url := "p.jpg".toList }

theorem output_fields_nonempty_witness :
    sampleRecord.pet_id ≠ [] ∧ sampleRecord.link ≠ [] ∧ sampleRecord.name ≠ [] ∧
      sampleRecord.sex ≠ [] ∧ sampleRecord.age ≠ [] ∧ sampleRecord.photo_url ≠ [] :=
  output_fields_nonempty [sampleCard] sampleRecord (by decide)

/-- Test for a record carrying the given profile link. -/
def byLink (l : List Char) (r : AnimalRecord) : Bool :=
  decide (r.link = l)

theorem processCards_eq_foldl (cs : List AnimalCard) (m : List AnimalRecord) :
    processCards cs m = (cs.filterMap buildRecord).foldl insertCard m := by
  induction cs generalizing m with
  | nil => rfl
  | cons c rest ih =>
    simp only [processCards, List.filterMap_cons]
    cases buildRecord c with
    | none => exact ih m
    | some r => simp only [List.foldl_cons]; exact ih (insertCard m r)

theorem filter_insertCard_other (m : List AnimalRecord) (x : AnimalRecord)
    (l : List Char) (hx : byLink l x = false) :
    (insertCard m x).filter (byLink l) = m.filter (byLink l) := by
  simp only [insertCard]
  by_cases h : m.any (fun y => decide (y.link = x.link)) = true
  · rw [if_pos h]
  · rw [if_neg h]
    rw [List.filter_append]
    simp [hx]

theorem any_link_of_filter_ne_nil (m : List AnimalRecord) (l : List Char)
    (h : m.filter (byLink l) ≠ []) :
    m.any (fun y => decide (y.link = l)) = true := by
  obtain ⟨r, hr⟩ := List.exists_mem_of_ne_nil _ h
  obtain ⟨hmem, hpred⟩ := List.mem_filter.mp hr
  exact List.any_eq_true.mpr ⟨r, hmem, hpred⟩

theorem foldl_insertCard_filter_stable (rs : List AnimalRecord)
    (m : List AnimalRecord) (l : List Char) (h : m.filter (byLink l) ≠ []) :
    (rs.foldl insertCard m).filter (byLink l) = m.filter (byLink l) := by
  induction rs generalizing m with
  | nil => rfl
  | cons x rest ih =>
    simp only [List.foldl_cons]
    by_cases hx : byLink l x = true
    · have hxl : x.link = l := of_decide_eq_true hx
      have hskip : insertCard m x = m := by
        simp only [insertCard]
        rw [if_pos]
        rw [hxl]
        exact any_link_of_filter_ne_nil m l h
      rw [hskip]
      exact ih m h
    · have hx2 : byLink l x = false := by simpa using hx
      have hfilter := filter_insertCard_other m x l hx2
      have hne : (insertCard m x).filter (byLink l) ≠ [] := by
        rw [hfilter]
        exact h
      rw [ih (insertCard m x) hne, hfilter]

theorem foldl_insertCard_filter_first (rs : List AnimalRecord)
    (m : List AnimalRecord) (l : List Char)
    (h : m.filter (byLink l) = []) :
    (rs.foldl insertCard m).filter (byLink l) = (rs.find? (byLink l)).toList := by
  induction rs generalizing m with
  | nil => simpa using h
  | cons x rest ih =>
    simp only [List.foldl_cons]
    by_cases hx : byLink l x = true
    · have hxl : x.link = l := of_decide_eq_true hx
      have hnone : m.any (fun y => decide (y.link = x.link)) = false := by
        rw [hxl]
        by_contra hany
        have hany2 : m.any (fun y => decide (y.link = l)) = true := by
          simpa using hany
        obtain ⟨r, hrmem, hrl⟩ := List.any_eq_true.mp hany2
        have : r ∈ m.filter (byLink l) := List.mem_filter.mpr ⟨hrmem, hrl⟩
        rw [h] at this
        simp at this
      have hins : insertCard m x = m ++ [x] := by
        simp only [insertCard]
        rw [if_neg]
        simp [hnone]
      have hfil : (m ++ [x]).filter (byLink l) = [x] := by
        rw [List.filter_append, h]
        simp [hx]
      rw [hins]
      rw [foldl_insertCard_filter_stable rest (m ++ [x]) l (by rw [hfil]; simp)]
      rw [hfil]
      rw [List.find?_cons_of_pos _ hx]
      rfl
    · have hx2 : byLink l x = false := by simpa using hx
      have hfilter := filter_insertCard_other m x l hx2
      rw [ih (insertCard m x) (by rw [hfilter]; exact h)]
      rw [List.find?_cons_of_neg _ (by simp [hx2])]

/-- C5: when two or more validated cards share the same `link`, the
crawler's deduplicated output contains exactly one record for that link —
the record of the first card seen with it. The output restricted to the
link equals the singleton of the first validated record carrying it. -/
theorem dedup_first_seen_wins (cs : List AnimalCard) (l : List Char)
    (h : 2 ≤ ((cs.filterMap buildRecord).filter (byLink l)).length) :
    ((cs.filterMap buildRecord).find? (byLink l)).isSome = true ∧
    (processCards cs []).filter (byLink l) =
      ((cs.filterMap buildRecord).find? (byLink l)).toList := by
  constructor
  · have hne : (cs.filterMap buildRecord).filter (byLink l) ≠ [] := by
      intro he
      rw [he] at h
      simp at h
    obtain ⟨r, hr⟩ := List.exists_mem_of_ne_nil _ hne
    obtain ⟨hmem, hpred⟩ := List.mem_filter.mp hr
    exact List.find?_isSome.mpr ⟨r, hmem, hpred⟩
  · rw [processCards_eq_foldl]
    exact foldl_insertCard_filter_first (cs.filterMap buildRecord) [] l rfl

/-- A second card sharing `sampleCard`'s link but carrying different field
values. -/
def sampleCardDup : AnimalCard :=
  { pet_id := some ("1729".toList), link := some ("https://x".toList),
    name := some ("Cimba".toList), ptext := some ("Дівчинка, 2 роки".toList),
    photo_url := some ("q.jpg".toList) }

theorem dedup_first_seen_wins_witness :
    (processCards [sampleCard, sampleCardDup] []).filter (byLink ("https://x".toList)) =
      [sampleRecord] := by
  have h := (dedup_first_seen_wins [sampleCard, sampleCardDup]
    ("https://x".toList) (by decide)).2
  rw [h]
  decide

/-- C6: if a transport or parse exception occurs while visiting a page,
pagination halts immediately: after a chain of successful page visits, an
erroring visit makes the crawl return exactly the records accumulated from
the pages before it, changed by the failing visit only through the cards it
had already inserted before the exception — the pages after it are never
consulted. -/
theorem crawl_halts_on_error (site : String → PageResult) (u0 uend : String)
    (chain : List (String × List AnimalCard)) (done : List AnimalCard)
    (fuel : Nat) (m : List AnimalRecord)
    (hchain : chainOk site u0 chain uend)
    (herr : site uend = PageResult.err done)
    (hfuel : chain.length < fuel) :
    crawlFrom site fuel (some u0) m =
      processCards done (chain.foldl (fun acc p => processCards p.2 acc) m) := by
  induction chain generalizing u0 fuel m with
  | nil =>
    have hu : u0 = uend := hchain
    subst hu
    cases fuel with
    | zero => simp at hfuel
    | succ f =>
      simp only [crawlFrom, herr, List.foldl_nil]
  | cons p rest ih =>
    obtain ⟨u, cards⟩ := p
    obtain ⟨hu, next, hpage, hrest⟩ := hchain
    subst hu
    cases fuel with
    | zero => simp at hfuel
    | succ f =>
      simp only [crawlFrom, hpage, List.foldl_cons]
      exact ih next f (processCards cards m) hrest
        (Nat.lt_of_succ_lt_succ (by simpa using hfuel))

/-- A concrete two-page site whose second page errors. -/
def siteTwoPages : String → PageResult :=
  fun u => if u = "p1" then PageResult.page [sampleCard] (some "p2")
           else PageResult.err []

theorem crawl_halts_on_error_witness :
    crawlFrom siteTwoPages 2 (some "p1") [] = [sampleRecord] := by
  have h := crawl_halts_on_error siteTwoPages "p1" "p2" [("p1", [sampleCard])] [] 2 []
    ⟨rfl, "p2", by decide, rfl⟩ (by decide) (by decide)
  rw [h]
  decide

theorem mem_removeChar (a c : Char) (cs : List Char)
    (h : a ∈ removeChar c cs) : a ∈ cs := by
  induction cs with
  | nil => simp [removeChar] at h
  | cons x xs ih =>
    simp only [removeChar] at h
    by_cases hx : x = c
    · rw [if_pos hx] at h
      exact List.mem_cons_of_mem x (ih h)
    · rw [if_neg hx] at h
      rcases List.mem_cons.mp h with h1 | h1
      · exact h1 ▸ List.mem_cons_self x xs
      · exact List.mem_cons_of_mem x (ih h1)

theorem not_mem_removeChar_self (c : Char) (cs : List Char) :
    c ∉ removeChar c cs := by
  induction cs with
  | nil => simp [removeChar]
  | cons x xs ih =>
    simp only [removeChar]
    by_cases hx : x = c
    · rw [if_pos hx]
      exact ih
    · rw [if_neg hx]
      intro h
      rcases List.mem_cons.mp h with h1 | h1
      · exact hx h1.symm
      · exact ih h1

/-- C7: the history field extracted from a profile is the paragraph text
stripped and with every newline and carriage-return character deleted (not
replaced by anything), so no extracted history contains a `'\n'` or `'\r'`;
and when the history section or its paragraph is absent, the history field
is absent. -/
theorem history_line_breaks_removed (pd : ProfileDiv) (info : ProfileInfo)
    (h : extract_adoption_profile (some pd) = some info) :
    (∀ hd t, pd.historyDiv = some hd → hd.pTag = some t →
      info.history = some (removeChar '\r' (removeChar '\n' (pyStrip t)))) ∧
    (∀ t, info.history = some t → '\n' ∉ t ∧ '\r' ∉ t) ∧
    (pd.historyDiv.bind HistoryDiv.pTag = none → info.history = none) := by
  have hinfo := Option.some.inj h.symm
  have hhist : info.history =
      (pd.historyDiv.bind HistoryDiv.pTag).map
        (fun t => removeChar '\r' (removeChar '\n' (pyStrip t))) := by
    rw [hinfo]
    cases hhd : pd.historyDiv with
    | none => rfl
    | some hd =>
      cases hpt : hd.pTag with
      | none => simp [extract_adoption_profile, hpt]
      | some t => simp [extract_adoption_profile, hpt]
  refine ⟨?_, ?_, ?_⟩
  · intro hd t hhd hpt
    rw [hhist, hhd]
    simp [hpt]
  · intro t ht
    rw [hhist] at ht
    cases hb : pd.historyDiv.bind HistoryDiv.pTag with
    | none => rw [hb] at ht; exact Option.noConfusion ht
    | some t0 =>
      rw [hb] at ht
      have ht2 := Option.some.inj ht
      rw [← ht2]
      constructor
      · intro hmem
        exact not_mem_removeChar_self '\n' (pyStrip t0) (mem_removeChar _ _ _ hmem)
      · exact not_mem_removeChar_self '\r' (removeChar '\n' (pyStrip t0))
  · intro hnone
    rw [hhist, hnone]
    rfl

/-- The profile record extracted from `samplePage`. -/
def samplePageInfo : ProfileInfo :=
  { name := some ("Piksel".toList), age := none, gender := none, photos := [],
    videos := [], about := [], history := some ("Line1Line2".toList) }

theorem history_line_breaks_removed_witness :
    samplePageInfo.history = some ("Line1Line2".toList) ∧
    '\n' ∉ ("Line1Line2".toList) ∧ '\r' ∉ ("Line1Line2".toList) := by
  have h := history_line_breaks_removed samplePage samplePageInfo (by decide)
  have h2 := h.2.1 ("Line1Line2".toList) rfl
  exact ⟨rfl, h2.1, h2.2⟩


